import Mathlib

/-!
Shallow embedding of the bloom-spell repository: the Bloom-filter backed set
of src/bloom.py and the spell checker of src/spell.py built on top of it.

Modelling conventions:
* Python integers are modelled as Lean Int (or Nat where the source value is
  provably non-negative); Python float expressions are modelled over the reals.
* An element of the filter enters the code only through the value of Python's
  built-in hash, which is a fixed deterministic function of the element during
  an interpreter run; the model therefore represents an element by its hash
  value (an Int).  For the spell checker, whose elements are strings, the
  string hash is an explicit function parameter.
* Fallible operations (bytearray indexing, which raises IndexError when out of
  range) return Option; constructor validation (which raises ValueError)
  returns Except.
* Python bitwise and on arbitrary ints is bitwise and of infinite
  two's-complement representations, which is exactly Int.land.
-/

namespace BloomSpell

/-- Interpreter word size, bloom.py line 57: 64 if sys.maxsize exceeds 2 to
the 32, else 32.  We model the 64-bit platform branch, keeping the word size
a named constant so that statements about the mask shapes stay parametric. -/
def wordSize : ℕ := 64

/-- bloom.py line 25: minimum number of hash functions when deriving the
optimal count. -/
def MIN_NUM_HASHES : ℕ := 3

/-- bloom.py line 26: maximum number of hash functions when deriving the
optimal count. -/
def MAX_NUM_HASHES : ℕ := 32

/-- bloom.py line 27: default byte size of the filter storage. -/
def DEFAULT_BYTE_SIZE : ℕ := 1024 * 1024

/-- bloom.py line 59: the right mask sets all bits of the right half of a
word, i.e. it is 2 to the (word_size over 2), minus 1. -/
def rightMask (word_size : ℕ) : ℕ := 2 ^ (word_size / 2) - 1

/-- bloom.py lines 61-63: the left mask is (2 to the (word_size over 2 minus
1)) minus 1, shifted left by word_size over 2 — the source subtracts one from
the half width to account for the sign bit. -/
def leftMask (word_size : ℕ) : ℕ := (2 ^ (word_size / 2 - 1) - 1) <<< (word_size / 2)

/-- The state of a BloomFilterSet instance: the fields _bit_width, _num_adds,
_num_hashes and _storage of bloom.py (the storage bytearray is a list of
byte values).  The mask fields are not stored because they are the constant
values rightMask wordSize and leftMask wordSize. -/
structure BloomFilterSet where
  bit_width : ℕ
  num_adds : ℕ
  num_hashes : ℕ
  storage : List ℕ
deriving DecidableEq

/-- bloom.py line 103: left_hash is full_hash bitwise-and left_mask, shifted
right by half the word size.  The bitwise-and against a non-negative mask is
non-negative (see land_coe_nonneg below), so taking toNat before the shift is
exact. -/
def leftHash (full_hash : ℤ) : ℕ :=
  (Int.land full_hash (leftMask wordSize : ℤ)).toNat >>> (wordSize / 2)

/-- bloom.py line 105: right_hash is full_hash bitwise-and right_mask. -/
def rightHash (full_hash : ℤ) : ℕ :=
  (Int.land full_hash (rightMask wordSize : ℤ)).toNat

/-- bloom.py lines 97-111, _hash: the tuple of probe indices of an element,
(left_hash + hash_idx * right_hash) mod bit_width for hash_idx ranging over
0 .. num_hashes - 1. -/
def probes (f : BloomFilterSet) (full_hash : ℤ) : List ℕ :=
  (List.range f.num_hashes).map fun hash_idx =>
    (leftHash full_hash + hash_idx * rightHash full_hash) % f.bit_width

/-- bloom.py lines 79-86, _set_bit: set bit idx of the storage, addressing
byte idx / 8, bit idx mod 8.  The bytearray indexing raises IndexError when
the byte index is out of range, modelled as none. -/
def setBit (f : BloomFilterSet) (idx : ℕ) : Option BloomFilterSet :=
  if idx / 8 < f.storage.length then
    some { f with
      storage := f.storage.set (idx / 8)
        ((f.storage.getD (idx / 8) 0) ||| (1 <<< (idx % 8))) }
  else none

/-- bloom.py lines 88-95, _check_bit: test bit idx of the storage; the bool
conversion of byte and (1 shifted left by bit index). -/
def checkBit (f : BloomFilterSet) (idx : ℕ) : Option Bool :=
  if idx / 8 < f.storage.length then
    some (((f.storage.getD (idx / 8) 0) &&& (1 <<< (idx % 8))) != 0)
  else none

/-- The loop of bloom.py lines 120-121: set every bit in the given probe
list, propagating an indexing failure. -/
def setBits : BloomFilterSet → List ℕ → Option BloomFilterSet
  | f, [] => some f
  | f, p :: ps =>
    match setBit f p with
    | none => none
    | some f' => setBits f' ps

/-- bloom.py lines 113-122, add: set all probe bits of the element, then
increment _num_adds by one (the increment happens after the loop, so a
failed indexing leaves the count unchanged, as in the source). -/
def add (f : BloomFilterSet) (full_hash : ℤ) : Option BloomFilterSet :=
  match setBits f (probes f full_hash) with
  | none => none
  | some f' => some { f' with num_adds := f'.num_adds + 1 }

/-- The all(...) generator of bloom.py line 135: check the probe bits left to
right, short-circuiting at the first clear bit, propagating an indexing
failure. -/
def checkAll (f : BloomFilterSet) : List ℕ → Option Bool
  | [] => some true
  | p :: ps =>
    match checkBit f p with
    | none => none
    | some false => some false
    | some true => checkAll f ps

/-- bloom.py lines 124-135, the membership check: true iff every probe bit of
the element is set. -/
def contains (f : BloomFilterSet) (full_hash : ℤ) : Option Bool :=
  checkAll f (probes f full_hash)

/-- bloom.py lines 137-148, the size property: the number of add calls. -/
def size (f : BloomFilterSet) : ℕ := f.num_adds

/-- A sequence of add calls, failing if any single add fails. -/
def addAll : BloomFilterSet → List ℤ → Option BloomFilterSet
  | f, [] => some f
  | f, x :: xs =>
    match add f x with
    | none => none
    | some f' => addAll f' xs

/-- The errors the constructor can raise: the two ValueError cases of
bloom.py lines 45-52, and the ZeroDivisionError of the float division on
line 70 when expected_number_of_entries is zero. -/
inductive BloomError where
  | missingParameter
  | conflictingParameters
  | zeroDivisionError
deriving DecidableEq

/-- bloom.py lines 65-75: the derived hash count
max(min(floor(log(2) * bit_width / expected_number_of_entries), MAX), MIN),
the float arithmetic modelled over the reals.  The division raises
ZeroDivisionError when the expected count is zero; that case is the error
branch of initFilter, so this function is only ever applied to a positive
count.  The result of the max is at least MIN_NUM_HASHES, hence
non-negative, so toNat is exact. -/
noncomputable def numHashesFromExpected (bit_width expected_number_of_entries : ℕ) : ℕ :=
  (max (min ⌊Real.log 2 * (bit_width : ℝ) / (expected_number_of_entries : ℝ)⌋
      (MAX_NUM_HASHES : ℤ)) (MIN_NUM_HASHES : ℤ)).toNat

/-- The state produced by the constructor once validation has passed:
bit_width is byte_size * 8 (line 54), num_adds is 0 (line 55), the storage is
bit_width / 8 zero bytes (line 64), and num_hashes is the given count. -/
def mkFilter (byte_size num_hashes : ℕ) : BloomFilterSet :=
  { bit_width := byte_size * 8
    num_adds := 0
    num_hashes := num_hashes
    storage := List.replicate (byte_size * 8 / 8) 0 }

/-- bloom.py lines 29-77, the constructor: reject the cases where neither or
both of expected_number_of_entries and num_hashes are given, otherwise build
the filter with the explicit hash count or the derived one.  The derivation
divides by the expected count (line 70), so an expected count of zero raises
ZeroDivisionError instead of producing a filter. -/
noncomputable def initFilter (byte_size : ℕ)
    (expected_number_of_entries num_hashes : Option ℕ) :
    Except BloomError BloomFilterSet :=
  match expected_number_of_entries, num_hashes with
  | none, none => .error .missingParameter
  | some _, some _ => .error .conflictingParameters
  | some n, none =>
    if n = 0 then .error .zeroDivisionError
    else .ok (mkFilter byte_size (numHashesFromExpected (byte_size * 8) n))
  | none, some k => .ok (mkFilter byte_size k)

/-- Modelled from the spec's words: clamp(x, lo, hi), the value x forced into
the interval from lo to hi (max of lo with the min of x and hi).  Used to
compare the source's max-min expression against the spec's clamp. -/
def clamp (x lo hi : ℤ) : ℤ := max lo (min x hi)

/-- Proof-side pure reading of one bit of a storage list: the value that
checkBit returns when the byte index is in range. -/
def bitVal (storage : List ℕ) (idx : ℕ) : Bool :=
  ((storage.getD (idx / 8) 0) &&& (1 <<< (idx % 8))) != 0

/-- Proof-side pure membership: every probe bit of the element is set.  Under
the storage invariant this is the value that contains returns. -/
def containsB (f : BloomFilterSet) (full_hash : ℤ) : Bool :=
  (probes f full_hash).all fun p => bitVal f.storage p

/-- Structural invariant of every constructed filter: the storage holds
exactly bit_width / 8 bytes (with bit_width a multiple of 8), and is
non-empty. -/
def StorageInv (f : BloomFilterSet) : Prop :=
  f.storage.length * 8 = f.bit_width ∧ 0 < f.storage.length

/-- spell.py line 64: Python str.lower applied per character. -/
def pyLower (word : List Char) : List Char := word.map Char.toLower

/-- The whitespace characters recognised by Python str.split with no
arguments: space, tab, newline, carriage return, vertical tab, form feed. -/
def pyIsSpace (c : Char) : Bool :=
  c = ' ' || c = '\t' || c = '\n' || c = '\r' || c = '\x0b' || c = '\x0c'

/-- Helper for pySplit: accumulate the current (reversed) token while
scanning the text. -/
def pySplitAux : List Char → List Char → List (List Char)
  | [], acc => if acc.isEmpty then [] else [acc.reverse]
  | c :: cs, acc =>
    if pyIsSpace c then
      if acc.isEmpty then pySplitAux cs [] else acc.reverse :: pySplitAux cs []
    else pySplitAux cs (c :: acc)

/-- Python str.split with no arguments: split on runs of whitespace,
discarding empty tokens. -/
def pySplit (text : List Char) : List (List Char) := pySplitAux text []

/-- spell.py lines 8-53: the SpellChecker holds a vocabulary filter and the
count of words read in.  Reading the vocabulary file is I/O and is outside
the model; the claims concern the query operations on an arbitrary checker
state. -/
structure SpellChecker where
  vocab : BloomFilterSet
  vocab_size : ℕ

/-- spell.py lines 49-50: membership in the checker delegates to the
vocabulary filter.  The string hash function is an explicit parameter. -/
def checkerContains (hashFn : List Char → ℤ) (sc : SpellChecker)
    (word : List Char) : Option Bool :=
  contains sc.vocab (hashFn word)

/-- spell.py lines 55-64, spell_check: one boolean per whitespace token of
the text, the negation of membership of the lower-cased token in the
vocabulary filter. -/
def spell_check (hashFn : List Char → ℤ) (sc : SpellChecker)
    (text : List Char) : Option (List Bool) :=
  (pySplit text).mapM fun word =>
    (contains sc.vocab (hashFn (pyLower word))).map (fun b => !b)

/-! ## Supporting lemmas -/

/-- Bitwise and of any integer with a natural-number mask is non-negative, so
the toNat conversions inside leftHash and rightHash are exact. -/
lemma land_coe_nonneg (h : ℤ) (n : ℕ) : 0 ≤ Int.land h (n : ℤ) := by
  cases h with
  | ofNat m => simp [Int.land]
  | negSucc m => simp [Int.land]

/-- A byte masked with a single-bit mask is nonzero exactly when the bit under
the mask is set. -/
lemma and_one_shiftLeft_ne_zero (x b : ℕ) :
    (x &&& (1 <<< b)) ≠ 0 ↔ x.testBit b = true := by
  rw [Nat.shiftLeft_eq, one_mul, Nat.and_two_pow]
  cases hx : x.testBit b <;>
    simp [hx, (Nat.pos_pow_of_pos b (show 0 < 2 by norm_num)).ne']

/-- bitVal reads exactly the bit idx mod 8 of the byte idx div 8. -/
lemma bitVal_true_iff (storage : List ℕ) (idx : ℕ) :
    bitVal storage idx = true ↔ (storage.getD (idx / 8) 0).testBit (idx % 8) = true := by
  rw [bitVal, bne_iff_ne]
  exact and_one_shiftLeft_ne_zero _ _

/-- Setting one bit in a storage list preserves every bit that was already
set. -/
lemma bitVal_mono_set (s : List ℕ) (p idx : ℕ)
    (h : bitVal s idx = true) :
    bitVal (s.set (p / 8) ((s.getD (p / 8) 0) ||| (1 <<< (p % 8)))) idx = true := by
  rw [bitVal_true_iff] at h ⊢
  by_cases hj : idx / 8 = p / 8
  · by_cases hlen : p / 8 < s.length
    · rw [hj, List.getD_eq_getElem?_getD, List.getElem?_set_self hlen]
      simpa [Nat.testBit_lor, hj] using Or.inl h
    · rw [List.set_eq_of_length_le (by omega)]
      exact h
  · rwa [List.getD_eq_getElem?_getD, List.getElem?_set_ne (fun hh => hj hh.symm),
      ← List.getD_eq_getElem?_getD]

/-- After setting bit p, bit p reads as set (when the byte index is in
range). -/
lemma bitVal_set_self (s : List ℕ) (p : ℕ) (hlen : p / 8 < s.length) :
    bitVal (s.set (p / 8) ((s.getD (p / 8) 0) ||| (1 <<< (p % 8)))) p = true := by
  rw [bitVal_true_iff, List.getD_eq_getElem?_getD, List.getElem?_set_self hlen]
  simp [Nat.testBit_lor, Nat.shiftLeft_eq, one_mul, Nat.testBit_two_pow_self]

/-- Everything a successful setBit guarantees: the byte index was in range,
all parameters and the storage length are unchanged, previously set bits stay
set, and the requested bit is now set. -/
lemma setBit_eq_some {f f' : BloomFilterSet} {p : ℕ} (h : setBit f p = some f') :
    p / 8 < f.storage.length ∧
    f'.bit_width = f.bit_width ∧ f'.num_hashes = f.num_hashes ∧
    f'.num_adds = f.num_adds ∧ f'.storage.length = f.storage.length ∧
    (∀ j, bitVal f.storage j = true → bitVal f'.storage j = true) ∧
    bitVal f'.storage p = true := by
  rw [setBit] at h
  split at h
  case isTrue hlt =>
    cases h
    refine ⟨hlt, rfl, rfl, rfl, by simp, fun j hj => bitVal_mono_set _ _ _ hj,
      bitVal_set_self _ _ hlt⟩
  case isFalse => exact absurd h (by simp)

/-- Everything a successful setBits pass guarantees, by induction over the
probe list. -/
lemma setBits_eq_some :
    ∀ (ps : List ℕ) (f f' : BloomFilterSet), setBits f ps = some f' →
      f'.bit_width = f.bit_width ∧ f'.num_hashes = f.num_hashes ∧
      f'.num_adds = f.num_adds ∧ f'.storage.length = f.storage.length ∧
      (∀ j, bitVal f.storage j = true → bitVal f'.storage j = true) ∧
      (∀ p ∈ ps, bitVal f'.storage p = true ∧ p / 8 < f.storage.length) := by
  intro ps
  induction ps with
  | nil =>
    intro f f' h
    cases h
    exact ⟨rfl, rfl, rfl, rfl, fun _ h => h, by simp⟩
  | cons p ps ih =>
    intro f f' h
    rw [setBits] at h
    cases h1 : setBit f p with
    | none => rw [h1] at h; cases h
    | some f1 =>
      rw [h1] at h
      obtain ⟨hlt, hw, hk, ha, hlen, hmono, hset⟩ := setBit_eq_some h1
      obtain ⟨hw', hk', ha', hlen', hmono', hall⟩ := ih f1 f' h
      refine ⟨hw'.trans hw, hk'.trans hk, ha'.trans ha, hlen'.trans hlen,
        fun j hj => hmono' j (hmono j hj), fun q hq => ?_⟩
      rcases List.mem_cons.mp hq with rfl | hq'
      · exact ⟨hmono' q hset, hlt⟩
      · obtain ⟨hb, hl⟩ := hall q hq'
        exact ⟨hb, by omega⟩

/-- setBits succeeds whenever every byte index is in range. -/
lemma setBits_total :
    ∀ (ps : List ℕ) (f : BloomFilterSet), (∀ p ∈ ps, p / 8 < f.storage.length) →
      (setBits f ps).isSome = true := by
  intro ps
  induction ps with
  | nil => intro f _; rfl
  | cons p ps ih =>
    intro f h
    have hp : p / 8 < f.storage.length := h p (by simp)
    rw [setBits, setBit, if_pos hp]
    exact ih _ (fun q hq => by simpa using h q (by simp [hq]))

/-- The probe list depends only on the hash count and the bit width. -/
lemma probes_congr {f g : BloomFilterSet} (x : ℤ)
    (h1 : f.num_hashes = g.num_hashes) (h2 : f.bit_width = g.bit_width) :
    probes f x = probes g x := by
  rw [probes, probes, h1, h2]

/-- Everything a successful add guarantees: parameters and storage length
unchanged, the add count incremented by one, previously set bits stay set,
and every probe bit of the added element is set and in range. -/
lemma add_eq_some {f f' : BloomFilterSet} {x : ℤ} (h : add f x = some f') :
    f'.bit_width = f.bit_width ∧ f'.num_hashes = f.num_hashes ∧
    f'.num_adds = f.num_adds + 1 ∧ f'.storage.length = f.storage.length ∧
    (∀ j, bitVal f.storage j = true → bitVal f'.storage j = true) ∧
    (∀ p ∈ probes f x, bitVal f'.storage p = true ∧ p / 8 < f.storage.length) := by
  rw [add] at h
  cases h1 : setBits f (probes f x) with
  | none => rw [h1] at h; cases h
  | some f1 =>
    rw [h1] at h
    cases h
    obtain ⟨hw, hk, ha, hlen, hmono, hall⟩ := setBits_eq_some _ _ _ h1
    exact ⟨hw, hk, show f1.num_adds + 1 = f.num_adds + 1 by rw [ha], hlen, hmono, hall⟩

/-- Everything a successful sequence of adds guarantees: parameters and
storage length unchanged and previously set bits stay set. -/
lemma addAll_eq_some :
    ∀ (xs : List ℤ) (f f' : BloomFilterSet), addAll f xs = some f' →
      f'.bit_width = f.bit_width ∧ f'.num_hashes = f.num_hashes ∧
      f'.storage.length = f.storage.length ∧
      (∀ j, bitVal f.storage j = true → bitVal f'.storage j = true) := by
  intro xs
  induction xs with
  | nil =>
    intro f f' h
    cases h
    exact ⟨rfl, rfl, rfl, fun _ h => h⟩
  | cons x xs ih =>
    intro f f' h
    rw [addAll] at h
    cases h1 : add f x with
    | none => rw [h1] at h; cases h
    | some f1 =>
      rw [h1] at h
      obtain ⟨hw, hk, _, hlen, hmono, _⟩ := add_eq_some h1
      obtain ⟨hw', hk', hlen', hmono'⟩ := ih f1 f' h
      exact ⟨hw'.trans hw, hk'.trans hk, hlen'.trans hlen,
        fun j hj => hmono' j (hmono j hj)⟩

/-- Splitting a sequence of adds at any point. -/
lemma addAll_append (xs ys : List ℤ) (f : BloomFilterSet) :
    addAll f (xs ++ ys) = (addAll f xs).bind (fun g => addAll g ys) := by
  induction xs generalizing f with
  | nil => rfl
  | cons x xs ih =>
    rw [List.cons_append, addAll, addAll]
    cases h : add f x with
    | none => rfl
    | some f1 => exact ih f1

/-- checkAll computes the conjunction of the probed bits whenever every byte
index is in range. -/
lemma checkAll_eq_all (f : BloomFilterSet) :
    ∀ (ps : List ℕ), (∀ p ∈ ps, p / 8 < f.storage.length) →
      checkAll f ps = some (ps.all fun p => bitVal f.storage p) := by
  intro ps
  induction ps with
  | nil => intro _; rfl
  | cons p ps ih =>
    intro h
    have hp : p / 8 < f.storage.length := h p (by simp)
    have hBit : checkBit f p = some (bitVal f.storage p) := by
      rw [checkBit, if_pos hp]; rfl
    rw [checkAll, hBit]
    cases hbv : bitVal f.storage p with
    | false => simp [hbv]
    | true => simp [hbv, ih (fun q hq => h q (by simp [hq]))]

/-- contains computes pure conjunctive membership whenever every probe byte
index is in range. -/
lemma contains_eq_pure (f : BloomFilterSet) (x : ℤ)
    (h : ∀ p ∈ probes f x, p / 8 < f.storage.length) :
    contains f x = some (containsB f x) :=
  checkAll_eq_all f _ h

/-- Under the storage invariant every probe index is below the bit width and
its byte index is inside the storage. -/
lemma probes_bounds {f : BloomFilterSet} (hInv : StorageInv f) (x : ℤ) :
    ∀ p ∈ probes f x, p < f.bit_width ∧ p / 8 < f.storage.length := by
  obtain ⟨hlen, hpos⟩ := hInv
  intro p hp
  rw [probes] at hp
  obtain ⟨i, _, rfl⟩ := List.mem_map.mp hp
  have hw : 0 < f.bit_width := by omega
  have hlt : (leftHash x + i * rightHash x) % f.bit_width < f.bit_width :=
    Nat.mod_lt _ hw
  exact ⟨hlt, by omega⟩

/-- Splitting a successful sequence of adds at any point. -/
lemma addAll_append_some (xs ys : List ℤ) (f f' : BloomFilterSet) :
    addAll f (xs ++ ys) = some f' ↔
      ∃ g, addAll f xs = some g ∧ addAll g ys = some f' := by
  induction xs generalizing f with
  | nil => simp [addAll]
  | cons x xs ih =>
    rw [List.cons_append, addAll, addAll]
    cases h : add f x with
    | none => simp
    | some f1 => exact ih f1

/-- A mapM over Option whose every step succeeds is the map of the values. -/
lemma mapM_eq_map_of_some {α β : Type} (g : α → β) :
    ∀ (l : List α) (fn : α → Option β), (∀ a ∈ l, fn a = some (g a)) →
      l.mapM fn = some (l.map g) := by
  intro l fn
  induction l with
  | nil => intro _; rfl
  | cons a l ih =>
    intro h
    rw [List.mapM_cons, h a (by simp), ih (fun b hb => h b (by simp [hb]))]
    rfl

/-! ## Claim theorems -/

/-- C5 counterexample: the claim says construction with exactly one of the
two parameters supplied succeeds; but supplying exactly
expected_number_of_entries with the value 0 makes the hash-count derivation
divide by zero, so that construction fails rather than succeeding. -/
theorem zero_expected_entries_fails :
    initFilter 1 (some 0) none = .error .zeroDivisionError := rfl

/-- C5 amended: constructing with both num_hashes and
expected_number_of_entries raises an error, constructing with neither raises
an error, and constructing with exactly one of the two succeeds — except
that supplying exactly a zero expected entry count fails with the division
by zero of the hash-count derivation; no filter is produced in any failing
case (the constructor returns the error value, never a partial state). -/
theorem constructor_exclusivity (byte_size n k : ℕ) :
    initFilter byte_size (some n) (some k) = .error .conflictingParameters ∧
    initFilter byte_size none none = .error .missingParameter ∧
    (initFilter byte_size none (some k)).isOk = true ∧
    (0 < n → (initFilter byte_size (some n) none).isOk = true) ∧
    initFilter byte_size (some 0) none = .error .zeroDivisionError := by
  refine ⟨rfl, rfl, rfl, fun hn => ?_, rfl⟩
  simp only [initFilter]
  rw [if_neg (by omega)]
  rfl

/-- C5 witness for the amended statement at a concrete positive expected
entry count. -/
theorem constructor_exclusivity_witness :
    (initFilter 4 (some 10) none).isOk = true :=
  (constructor_exclusivity 4 10 0).2.2.2.1 (by norm_num)

/-- C10: an explicitly supplied num_hashes is accepted exactly as given, with
no validation or clamping to the 3..32 range; in particular construction with
num_hashes 0 succeeds, and on the resulting fresh filter the membership check
answers true for every element, the conjunction over zero probe bits being
vacuously true. -/
theorem explicit_num_hashes_unvalidated (byte_size k : ℕ) (x : ℤ) :
    initFilter byte_size none (some k) = .ok (mkFilter byte_size k) ∧
    (mkFilter byte_size k).num_hashes = k ∧
    (mkFilter byte_size 0).num_adds = 0 ∧
    contains (mkFilter byte_size 0) x = some true :=
  ⟨rfl, rfl, rfl, rfl⟩

/-- C3 counterexample: the claim says that on a 64-bit word both the right
mask and the left mask cover exactly 32 bits of the hash value; but the left
mask of the source is not the 32-bit-wide upper-half mask — it is built from
a width of word_size over 2, minus one. -/
theorem left_mask_not_half_word :
    leftMask 64 ≠ (2 ^ (64 / 2) - 1) <<< (64 / 2) := by decide

/-- C3 amended: the hash value is split by bit-masking into a lower half and
an upper part, but the two masks are not the same width: on a 64-bit word the
right mask covers exactly the 32 bits 0..31, while the left mask covers only
the 31 bits 32..62, the top (sign) bit being deliberately excluded by the
source. -/
theorem mask_bit_coverage :
    (∀ i : ℕ, (rightMask 64).testBit i = true ↔ i < 64 / 2) ∧
    (∀ i : ℕ, (leftMask 64).testBit i = true ↔ 64 / 2 ≤ i ∧ i < 63) := by
  constructor
  · intro i
    rw [rightMask, Nat.testBit_two_pow_sub_one]
    simp
  · intro i
    rw [leftMask, Nat.testBit_shiftLeft]
    simp only [ge_iff_le, Nat.testBit_two_pow_sub_one, Bool.and_eq_true,
      decide_eq_true_eq]
    omega

/-- C6 counterexample: the claim says construction with byte_size 0 raises an
InvalidSize error for every valid hash count; but the constructor performs no
size validation and succeeds. -/
theorem zero_byte_size_constructs :
    (initFilter 0 none (some 3)).isOk = true := rfl

/-- C6 amended: no size validation exists at construction; with byte_size 0
the constructor succeeds for every hash count, producing a filter with zero
bit width and empty storage, and the invalid size only surfaces once an
element is added or queried (for a positive hash count both operations fail
on the empty storage; in the source the failure is an exception raised inside
the operation). -/
theorem zero_byte_size_amended (k : ℕ) (x : ℤ) :
    initFilter 0 none (some k) = .ok (mkFilter 0 k) ∧
    (mkFilter 0 k).bit_width = 0 ∧
    (mkFilter 0 k).storage = [] ∧
    (0 < k → add (mkFilter 0 k) x = none ∧ contains (mkFilter 0 k) x = none) := by
  refine ⟨rfl, rfl, rfl, fun hk => ?_⟩
  cases k with
  | zero => omega
  | succ k' =>
    cases hp : probes (mkFilter 0 (k' + 1)) x with
    | nil =>
      exfalso
      have hlen := congrArg List.length hp
      simp [probes, mkFilter] at hlen
    | cons p ps =>
      constructor
      · rw [add, hp, setBits, setBit]
        simp [mkFilter]
      · rw [contains, hp, checkAll, checkBit]
        simp [mkFilter]

/-- C6 witness for the amended statement at a concrete input. -/
theorem zero_byte_size_amended_witness :
    initFilter 0 none (some 3) = .ok (mkFilter 0 3) ∧
    add (mkFilter 0 3) 0 = none :=
  ⟨(zero_byte_size_amended 3 0).1, ((zero_byte_size_amended 3 0).2.2.2 (by norm_num)).1⟩

/-- C2: the probe computation produces exactly num_hashes positions, position
i being (left_hash + i * right_hash) mod bit_width, and the probe tuple is a
pure function of the element hash and the fixed filter parameters: any two
filters with the same hash count and bit width give the same element the same
probe tuple. -/
theorem probe_tuple_spec (f : BloomFilterSet) (x : ℤ) :
    (probes f x).length = f.num_hashes ∧
    (∀ i, i < f.num_hashes →
      (probes f x).getD i 0 = (leftHash x + i * rightHash x) % f.bit_width) ∧
    (∀ g : BloomFilterSet, g.num_hashes = f.num_hashes → g.bit_width = f.bit_width →
      probes g x = probes f x) := by
  refine ⟨by simp [probes], fun i hi => ?_, fun g h1 h2 => probes_congr x h1 h2⟩
  rw [probes, List.getD_eq_getElem?_getD, List.getElem?_map, List.getElem?_range hi]
  rfl

/-- C2 witness at a concrete filter, element and probe position. -/
theorem probe_tuple_spec_witness :
    (probes (mkFilter 2 3) 5).getD 1 0 =
      (leftHash 5 + 1 * rightHash 5) % (mkFilter 2 3).bit_width :=
  (probe_tuple_spec (mkFilter 2 3) 5).2.1 1 (by decide)

/-- C8: for a filter whose storage matches its bit width (as every
constructed filter does) and has at least one byte, every probe index lies
below the bit width, its byte index lies inside the storage, and therefore
the out-of-range branches of the bit operations are unreachable: add and the
membership check always return a value rather than an indexing failure. -/
theorem probe_indices_in_range (f : BloomFilterSet) (x : ℤ)
    (hInv : StorageInv f) :
    (∀ p ∈ probes f x, p < f.bit_width ∧ p / 8 < f.storage.length) ∧
    (add f x).isSome = true ∧ (contains f x).isSome = true := by
  refine ⟨probes_bounds hInv x, ?_, ?_⟩
  · rw [add]
    have h := setBits_total (probes f x) f
      (fun p hp => (probes_bounds hInv x p hp).2)
    cases hs : setBits f (probes f x) with
    | none => rw [hs] at h; cases h
    | some f1 => rfl
  · rw [contains_eq_pure f x (fun p hp => (probes_bounds hInv x p hp).2)]
    rfl

/-- C8 witness at a concrete filter and element. -/
theorem probe_indices_in_range_witness :
    (add (mkFilter 1 3) 5).isSome = true ∧ (contains (mkFilter 1 3) 5).isSome = true :=
  ⟨(probe_indices_in_range (mkFilter 1 3) 5 (by constructor <;> decide)).2.1,
   (probe_indices_in_range (mkFilter 1 3) 5 (by constructor <;> decide)).2.2⟩

/-- C1: no false negatives.  For every element x and every sequence of add
calls on a constructed filter that contains add of x, the membership check
for x answers true at every later point, however many other elements are
added in between: the run is any prefix, then the add of x, then any list of
interleaved additions, and the check is made on the final state. -/
theorem no_false_negatives (byte_size k : ℕ) (pre mid : List ℤ) (x : ℤ)
    (f : BloomFilterSet)
    (h : addAll (mkFilter byte_size k) (pre ++ x :: mid) = some f) :
    contains f x = some true := by
  obtain ⟨f1, _, h2⟩ := (addAll_append_some pre (x :: mid) _ f).mp h
  rw [addAll] at h2
  cases h3 : add f1 x with
  | none => rw [h3] at h2; cases h2
  | some f2 =>
    rw [h3] at h2
    obtain ⟨hw2, hk2, _, hlen2, _, hset⟩ := add_eq_some h3
    obtain ⟨hw3, hk3, hlen3, hmono3⟩ := addAll_eq_some mid f2 f h2
    have hprobes : probes f x = probes f1 x :=
      probes_congr x (by rw [hk3, hk2]) (by rw [hw3, hw2])
    have hbounds : ∀ p ∈ probes f x, p / 8 < f.storage.length := by
      intro p hp
      rw [hprobes] at hp
      have := (hset p hp).2
      omega
    rw [contains_eq_pure f x hbounds]
    suffices hc : containsB f x = true by rw [hc]
    rw [containsB, List.all_eq_true]
    intro p hp
    have hp1 : p ∈ probes f1 x := by rwa [hprobes] at hp
    exact hmono3 p (hset p hp1).1

/-- C1 witness: on a 1-byte filter with 2 hash probes, adding 5 and then 7
ends in a state where 5 still tests as a member. -/
theorem no_false_negatives_witness :
    contains ⟨8, 2, 2, [161]⟩ 5 = some true :=
  no_false_negatives 1 2 [] [(7 : ℤ)] 5 ⟨8, 2, 2, [161]⟩ (by decide)

/-- C4: when the filter is constructed from an expected entry count, the
chosen hash count is the clamp of the floor of log 2 times bit_width over the
expected count into the range from MIN_NUM_HASHES to MAX_NUM_HASHES; a raw
estimate below the minimum yields exactly the minimum and one above the
maximum yields exactly the maximum.  The positivity hypothesis on the
expected count reflects that the source divides by it. -/
theorem num_hashes_clamped (byte_size n : ℕ) (hn : 0 < n) :
    initFilter byte_size (some n) none =
      .ok (mkFilter byte_size (numHashesFromExpected (byte_size * 8) n)) ∧
    numHashesFromExpected (byte_size * 8) n =
      (clamp ⌊Real.log 2 * ((byte_size * 8 : ℕ) : ℝ) / (n : ℝ)⌋
        (MIN_NUM_HASHES : ℤ) (MAX_NUM_HASHES : ℤ)).toNat ∧
    (⌊Real.log 2 * ((byte_size * 8 : ℕ) : ℝ) / (n : ℝ)⌋ < (MIN_NUM_HASHES : ℤ) →
      numHashesFromExpected (byte_size * 8) n = MIN_NUM_HASHES) ∧
    ((MAX_NUM_HASHES : ℤ) < ⌊Real.log 2 * ((byte_size * 8 : ℕ) : ℝ) / (n : ℝ)⌋ →
      numHashesFromExpected (byte_size * 8) n = MAX_NUM_HASHES) := by
  refine ⟨?_, ?_, fun hlo => ?_, fun hhi => ?_⟩
  · simp only [initFilter]
    rw [if_neg (by omega)]
  · simp only [numHashesFromExpected, clamp, MIN_NUM_HASHES, MAX_NUM_HASHES]
    omega
  · simp only [numHashesFromExpected, MIN_NUM_HASHES, MAX_NUM_HASHES] at hlo ⊢
    omega
  · simp only [numHashesFromExpected, MIN_NUM_HASHES, MAX_NUM_HASHES] at hhi ⊢
    omega

/-- C4 witness: 8 bits for 100 expected entries clamps up to the minimum of
3 hashes; 800 bits for 1 expected entry clamps down to the maximum of 32. -/
theorem num_hashes_clamped_witness :
    numHashesFromExpected (1 * 8) 100 = MIN_NUM_HASHES ∧
    numHashesFromExpected (100 * 8) 1 = MAX_NUM_HASHES := by
  constructor
  · refine (num_hashes_clamped 1 100 (by norm_num)).2.2.1 ?_
    simp only [MIN_NUM_HASHES]
    rw [Int.floor_lt]
    have h := Real.log_two_lt_d9
    push_cast
    nlinarith
  · refine (num_hashes_clamped 100 1 (by norm_num)).2.2.2 ?_
    have h33 : ((33 : ℤ) : ℝ) ≤ Real.log 2 * ((100 * 8 : ℕ) : ℝ) / ((1 : ℕ) : ℝ) := by
      have h := Real.log_two_gt_d9
      push_cast
      nlinarith
    have hfl := Int.le_floor.mpr h33
    simp only [MAX_NUM_HASHES]
    omega

/-- C9: spell_check returns one boolean per whitespace token of the text, in
token order, entry i being the negation of membership of the lower-cased
token i in the vocabulary filter (true means the token is absent). -/
theorem spell_check_spec (hashFn : List Char → ℤ) (sc : SpellChecker)
    (text : List Char) (hInv : StorageInv sc.vocab) :
    spell_check hashFn sc text =
      some ((pySplit text).map fun w => !(containsB sc.vocab (hashFn (pyLower w)))) ∧
    ((pySplit text).map fun w => !(containsB sc.vocab (hashFn (pyLower w)))).length
      = (pySplit text).length ∧
    (∀ i, i < (pySplit text).length →
      ((pySplit text).map fun w => !(containsB sc.vocab (hashFn (pyLower w)))).getD i false
        = !(containsB sc.vocab (hashFn (pyLower ((pySplit text).getD i []))))) := by
  refine ⟨?_, by simp, fun i hi => ?_⟩
  · rw [spell_check]
    apply mapM_eq_map_of_some
    intro w _
    rw [contains_eq_pure sc.vocab (hashFn (pyLower w))
      (fun p hp => (probes_bounds hInv _ p hp).2)]
    rfl
  · rw [List.getD_eq_getElem?_getD, List.getElem?_map, List.getElem?_eq_getElem hi,
      List.getD_eq_getElem?_getD, List.getElem?_eq_getElem hi]
    rfl

/-- C9 witness: on an empty one-byte vocabulary filter, the two tokens of a
two-word text both come back true (absent). -/
theorem spell_check_spec_witness :
    spell_check (fun w => (w.length : ℤ)) ⟨mkFilter 1 1, 0⟩ ['a', ' ', 'b'] =
      some [true, true] := by
  have h := (spell_check_spec (fun w => (w.length : ℤ)) ⟨mkFilter 1 1, 0⟩
    ['a', ' ', 'b'] (by constructor <;> decide)).1
  rw [h]
  decide

end BloomSpell
